import Mathlib

/-!
Verification of the image-transform and terminal-rendering core of
`pit.c` (Phono in Terminal).  The C functions are shallowly embedded:
pixel buffers become a structure over `List ℕ` (row-major, interleaved
samples, exactly as the C flat `unsigned char *` buffers), C `int`
arithmetic becomes `ℤ`, C `float` arithmetic is modelled as exact `ℚ`,
and the C cast `(int)` is truncation toward zero.  Out-of-bounds reads
(undefined behavior in C) are modelled as reading 0.
-/

/-- A pixel buffer: width, height, channel count and the flat row-major
sample list, mirroring the `unsigned char *img_data` plus `w`, `h`, `c`
arguments that every transform in `pit.c` receives. -/
structure Image where
  w : ℕ
  h : ℕ
  c : ℕ
  data : List ℕ
  deriving DecidableEq, Repr

/-- Builds the flat output list written by the canonical triple loop
`for y in [0,h) for x in [0,w) for ch in [0,c)` storing
`out[(y*w+x)*c+ch] = f x y ch`, which is exactly the loop structure of
every transform in `pit.c`. -/
def mkData (w h c : ℕ) (f : ℕ → ℕ → ℕ → ℕ) : List ℕ :=
  (List.range h).flatMap fun y =>
    (List.range w).flatMap fun x =>
      (List.range c).map fun ch => f x y ch

/-- A read of the flat buffer at a C `int` index: in-bounds indices read
the stored sample, anything else (undefined behavior in C) reads 0. -/
def readZ (data : List ℕ) (i : ℤ) : ℕ :=
  if 0 ≤ i ∧ i < (data.length : ℤ) then data.getD i.toNat 0 else 0

/-- `rgb_to_256` from pit.c lines 371-385: grayscale ramp when
`r == g && g == b`, otherwise the 6×6×6 color cube. -/
def rgb_to_256 (r g b : ℕ) : ℕ :=
  if r = g ∧ g = b then
    if r < 3 then 16
    else if r > 252 then 231
    else 232 + (r - 3) / 10
  else
    16 + (min 5 (r * 6 / 256)) * 36 + (min 5 (g * 6 / 256)) * 6 + min 5 (b * 6 / 256)

/-- `rgb_to_16` from pit.c lines 394-400: brightness bit plus one
threshold bit per channel. -/
def rgb_to_16 (r g b : ℕ) : ℕ :=
  (if r > 128 ∨ g > 128 ∨ b > 128 then 8 else 0) +
    (if r > 128 then 4 else 0) + (if g > 128 then 2 else 0) + (if b > 128 then 1 else 0)

/-- `flip_image_horizontal` from pit.c lines 784-801:
`flipped[(y*w+x)*c+ch] = img[(y*w+(w-1-x))*c+ch]`. -/
def flip_image_horizontal (img : Image) : Image :=
  ⟨img.w, img.h, img.c,
    mkData img.w img.h img.c fun x y ch =>
      img.data.getD ((y * img.w + (img.w - 1 - x)) * img.c + ch) 0⟩

/-- `flip_image_vertical` from pit.c lines 811-828:
`flipped[(y*w+x)*c+ch] = img[((h-1-y)*w+x)*c+ch]`. -/
def flip_image_vertical (img : Image) : Image :=
  ⟨img.w, img.h, img.c,
    mkData img.w img.h img.c fun x y ch =>
      img.data.getD (((img.h - 1 - y) * img.w + x) * img.c + ch) 0⟩

/-- `rotate_image_90_cw` from pit.c lines 838-868: `new_w = original_h`,
`new_h = original_w`, and for each destination pixel `ox = y`,
`oy = original_w - 1 - x` (signed C `int` arithmetic, hence `ℤ`), value
`img[(oy*original_w+ox)*c+ch]`. -/
def rotate_image_90_cw (img : Image) : Image :=
  ⟨img.h, img.w, img.c,
    mkData img.h img.w img.c fun x y ch =>
      readZ img.data
        ((((img.w : ℤ) - 1 - (x : ℤ)) * (img.w : ℤ) + (y : ℤ)) * (img.c : ℤ) + (ch : ℤ))⟩

/-- The flat source index read by `rotate_image_90_cw` for destination
pixel `(x, y)`, channel `ch`, on a source image of width `W` with `c`
channels: `(oy*W+ox)*c+ch` with `ox = y`, `oy = W-1-x`. -/
def rotateSrcIdx (W c x y ch : ℕ) : ℤ :=
  (((W : ℤ) - 1 - (x : ℤ)) * (W : ℤ) + (y : ℤ)) * (c : ℤ) + (ch : ℤ)

/-- The terminal color modes of pit.c (enum `ColorMode`). -/
inductive ColorMode where
  | unknown
  | color16
  | color256
  | trueColor
  deriving DecidableEq, Repr

/-- The C cast `(int)` applied to a float value, modelled on exact `ℚ`:
truncation toward zero. -/
def ratTrunc (q : ℚ) : ℤ :=
  if 0 ≤ q then ⌊q⌋ else ⌈q⌉

/-- The C cast `(unsigned char)` applied to a float value: truncation
toward zero, reduced to the 8-bit range (out-of-range values are
undefined behavior in C). -/
def ucCast (q : ℚ) : ℕ :=
  (ratTrunc q).toNat % 256

/-- The cached 16-color background escape text built by
`init_ansi_cache` (pit.c lines 406-420): codes 0-7 map to `ESC[4Nm`,
codes 8-15 to `ESC[10(N-8)m`. -/
def s_ansi_cache_16 (i : ℕ) : String :=
  if i < 8 then "\x1b[4" ++ toString i ++ "m"
  else "\x1b[10" ++ toString (i - 8) ++ "m"

/-- The cached 256-color background escape text built by
`init_ansi_cache` (pit.c lines 422-431): `ESC[48;5;Nm`. -/
def s_ansi_cache_256 (i : ℕ) : String :=
  "\x1b[48;5;" ++ toString i ++ "m"

/-- `format_ansi_color_code` from pit.c lines 462-510, producing the
text appended to the line buffer for one pixel (escape code plus one
space; just a space in unknown mode). -/
def format_ansi_color_code (r g b : ℕ) (mode : ColorMode) : String :=
  match mode with
  | .trueColor =>
      "\x1b[48;2;" ++ toString r ++ ";" ++ toString g ++ ";" ++ toString b ++ "m "
  | .color256 => s_ansi_cache_256 (rgb_to_256 r g b) ++ " "
  | .color16 => s_ansi_cache_16 (rgb_to_16 r g b) ++ " "
  | .unknown => " "

/-- The per-pixel color extraction of `render_image` (pit.c lines
570-582): with 4 channels, alpha-blend onto the background color with
float arithmetic truncated back to `unsigned char`; otherwise read three
samples starting at `(y*width+x)*channels` unchanged. -/
def render_pixel_color (img : Image) (bg_r bg_g bg_b : ℕ) (x y : ℕ) : ℕ × ℕ × ℕ :=
  let idx := (y * img.w + x) * img.c
  if img.c = 4 then
    let a := img.data.getD (idx + 3) 0
    let alphaNorm : ℚ := (a : ℚ) / 255
    (ucCast ((img.data.getD idx 0 : ℚ) * alphaNorm + (bg_r : ℚ) * (1 - alphaNorm)),
     ucCast ((img.data.getD (idx + 1) 0 : ℚ) * alphaNorm + (bg_g : ℚ) * (1 - alphaNorm)),
     ucCast ((img.data.getD (idx + 2) 0 : ℚ) * alphaNorm + (bg_b : ℚ) * (1 - alphaNorm)))
  else
    (img.data.getD idx 0, img.data.getD (idx + 1) 0, img.data.getD (idx + 2) 0)

/-- The flat buffer indices read by the per-pixel color extraction of
`render_image` for a pixel whose base index is `idx`: 4 samples for a
4-channel image, and the three samples `idx`, `idx+1`, `idx+2` for every
other channel count. -/
def render_pixel_reads (c idx : ℕ) : List ℕ :=
  if c = 4 then [idx, idx + 1, idx + 2, idx + 3]
  else [idx, idx + 1, idx + 2]

/-- `render_image` from pit.c lines 524-599, as the full text written to
the output stream: one line per row, each pixel contributing
`format_ansi_color_code` text, each row terminated by the reset sequence
and a newline. -/
def render_image (img : Image) (bg_r bg_g bg_b : ℕ) (mode : ColorMode) : String :=
  String.join ((List.range img.h).map fun y =>
    String.join ((List.range img.w).map fun x =>
      let rgb := render_pixel_color img bg_r bg_g bg_b x y
      format_ansi_color_code rgb.1 rgb.2.1 rgb.2.2 mode) ++ "\x1b[0m\n")

/-- The failure modes of `resize_image_bilinear`: the `Invalid input`
log-and-return-NULL path and the `Image too large` path.  Allocation
failure is not modelled (allocation always succeeds in the embedding). -/
inductive ResizeError where
  | invalidInput
  | sizeOverflow
  deriving DecidableEq, Repr

/-- The coordinate clamp of `resize_image_bilinear` (pit.c lines
656-659): `v < 0 ? 0 : (v >= n ? n - 1 : v)`. -/
def clampCoord (v : ℤ) (n : ℕ) : ℕ :=
  if v < 0 then 0 else if (n : ℤ) ≤ v then n - 1 else v.toNat

/-- One destination sample of `resize_image_bilinear` (pit.c lines
644-677): floating-point source coordinates, truncated neighbor lattice
coordinates, fractional weights computed before clamping, independent
clamping of the four neighbors, bilinear blend, and rounding by adding
0.5 before the `unsigned char` cast. -/
def bilinear_sample (img : Image) (src_x src_y : ℤ) (xScale yScale : ℚ)
    (x y ch : ℕ) : ℕ :=
  let ox : ℚ := (src_x : ℚ) + (x : ℚ) * xScale
  let oy : ℚ := (src_y : ℚ) + (y : ℚ) * yScale
  let x1 : ℤ := ratTrunc ox
  let y1 : ℤ := ratTrunc oy
  let dx : ℚ := ox - (x1 : ℚ)
  let dy : ℚ := oy - (y1 : ℚ)
  let x1c : ℕ := clampCoord x1 img.w
  let y1c : ℕ := clampCoord y1 img.h
  let x2c : ℕ := clampCoord (x1 + 1) img.w
  let y2c : ℕ := clampCoord (y1 + 1) img.h
  let v11 : ℚ := (img.data.getD ((y1c * img.w + x1c) * img.c + ch) 0 : ℚ)
  let v21 : ℚ := (img.data.getD ((y1c * img.w + x2c) * img.c + ch) 0 : ℚ)
  let v12 : ℚ := (img.data.getD ((y2c * img.w + x1c) * img.c + ch) 0 : ℚ)
  let v22 : ℚ := (img.data.getD ((y2c * img.w + x2c) * img.c + ch) 0 : ℚ)
  let valX1 : ℚ := v11 * (1 - dx) + v21 * dx
  let valX2 : ℚ := v12 * (1 - dx) + v22 * dx
  ucCast (valX1 * (1 - dy) + valX2 * dy + 1 / 2)

/-- `resize_image_bilinear` from pit.c lines 617-696.  The argument
guard and the `uint64_t` size computation (a product reduced modulo
2^64) checked against `SIZE_MAX` (the parameter `szMax`) happen, in
that order, before the output buffer exists; the output buffer is the
triple loop over destination pixels and channels. -/
def resize_image_bilinear (img : Image) (src_x src_y src_w src_h new_w new_h : ℤ)
    (szMax : ℕ) : Except ResizeError Image :=
  if new_w ≤ 0 ∨ new_h ≤ 0 ∨ src_w ≤ 0 ∨ src_h ≤ 0 then .error .invalidInput
  else if szMax < new_w.toNat * new_h.toNat * img.c % 2 ^ 64 then .error .sizeOverflow
  else
    .ok ⟨new_w.toNat, new_h.toNat, img.c,
      mkData new_w.toNat new_h.toNat img.c fun x y ch =>
        bilinear_sample img src_x src_y ((src_w : ℚ) / (new_w : ℚ))
          ((src_h : ℚ) / (new_h : ℚ)) x y ch⟩

/-- The clamp `if (v <= 0) v = 1;` used throughout
`calculate_display_dimensions` and the crop-rectangle computation. -/
def clamp1 (v : ℤ) : ℤ :=
  if v ≤ 0 then 1 else v

/-- `TERMINAL_CHAR_HEIGHT_TO_WIDTH_RATIO` (pit.c line 158), the assumed
character-cell height-to-width proportion `1.5f`. -/
def charAspect : ℚ := 3 / 2

/-- The branch of `calculate_display_dimensions` (pit.c lines 736-748)
choosing scale-by-width or scale-by-height; the height (resp. width) is
derived from the just-computed width (resp. height) variable, hence the
repeated subterm. -/
def cdd_initial (aspect eff zoom : ℚ) (tw usable : ℤ) : ℤ × ℤ :=
  if eff < aspect then
    (ratTrunc ((tw : ℚ) * zoom),
      ratTrunc (((ratTrunc ((tw : ℚ) * zoom) : ℚ) / aspect) / charAspect))
  else
    (ratTrunc (((ratTrunc ((usable : ℚ) * zoom) : ℚ) * charAspect) * aspect),
      ratTrunc ((usable : ℚ) * zoom))

/-- The `if (v <= 0) v = 1` minimum clamps applied to both axes
(pit.c lines 751-752 and 767-768). -/
def cdd_min1 : ℤ × ℤ → ℤ × ℤ
  | (cw, ch) => (clamp1 cw, clamp1 ch)

/-- The width clamp of `calculate_display_dimensions` (pit.c lines
755-759): cap the width at the terminal width and re-derive the height
from it. -/
def cdd_clamp_width (aspect : ℚ) (tw : ℤ) : ℤ × ℤ → ℤ × ℤ
  | (cw, ch) =>
      if tw < cw then
        (tw, clamp1 (ratTrunc (((tw : ℚ) / aspect) / charAspect)))
      else (cw, ch)

/-- The height clamp of `calculate_display_dimensions` (pit.c lines
760-764): cap the height at the usable row count and re-derive the
width from it. -/
def cdd_clamp_height (aspect : ℚ) (usable : ℤ) : ℤ × ℤ → ℤ × ℤ
  | (cw, ch) =>
      if usable < ch then
        (clamp1 (ratTrunc (((usable : ℚ) * charAspect) * aspect)), usable)
      else (cw, ch)

/-- `calculate_display_dimensions` from pit.c lines 709-774, with the
terminal size supplied as the parameters `tw`/`th` (the external
`get_terminal_size` collaborator): reserve 2 rows (floor 1), fall back
to the full terminal for non-positive source dimensions, pick the
scaling branch, then min-clamp, width-clamp, height-clamp, and re-apply
the min clamps. -/
def calculate_display_dimensions (imgW imgH : ℤ) (zoom : ℚ) (tw th : ℤ) : ℤ × ℤ :=
  if imgW ≤ 0 ∨ imgH ≤ 0 then (tw, clamp1 (th - 2))
  else
    cdd_min1 (cdd_clamp_height ((imgW : ℚ) / (imgH : ℚ)) (clamp1 (th - 2))
      (cdd_clamp_width ((imgW : ℚ) / (imgH : ℚ)) tw
        (cdd_min1 (cdd_initial ((imgW : ℚ) / (imgH : ℚ))
          ((tw : ℚ) / ((clamp1 (th - 2) : ℚ) * charAspect)) zoom tw (clamp1 (th - 2))))))

/-- The source-extent computation of `main` (pit.c lines 1113-1120):
`(int)(extent / zoom)` followed by the two clamps `if (v <= 0) v = 1;`
and `if (v > extent) v = extent;`. -/
def crop_size (extent : ℤ) (q : ℚ) : ℤ :=
  if extent < clamp1 (ratTrunc q) then extent else clamp1 (ratTrunc q)

/-- The source-offset computation of `main` (pit.c lines 1122-1129):
clamp the pan offset below by 0, pull it back if the rectangle leaves
the image, and re-clamp below by 0. -/
def crop_offset (extent size off : ℤ) : ℤ :=
  let o1 := if off < 0 then 0 else off
  let o2 := if extent < o1 + size then extent - size else o1
  if o2 < 0 then 0 else o2

/-- The source-rectangle computation of `main` (pit.c lines 1104-1129):
divide the image extent by the zoom factor, clamp the size into
`[1, extent]`, then clamp the pan offsets so the rectangle stays inside
the image.  Returned as `(x, y, width, height)`. -/
def main_source_rect (w h offx offy : ℤ) (zoom : ℚ) : ℤ × ℤ × ℤ × ℤ :=
  (crop_offset w (crop_size w ((w : ℚ) / zoom)) offx,
   crop_offset h (crop_size h ((h : ℚ) / zoom)) offy,
   crop_size w ((w : ℚ) / zoom),
   crop_size h ((h : ℚ) / zoom))

/-- Length of a `flatMap` whose pieces all have the same length `L`. -/
theorem flatMap_length_const {α : Type} (g : α → List ℕ) (L : ℕ) :
    ∀ l : List α, (∀ a ∈ l, (g a).length = L) → (l.flatMap g).length = l.length * L := by
  intro l
  induction l with
  | nil => intro _; simp
  | cons a l ih =>
      intro h
      simp only [List.flatMap_cons, List.length_append, List.length_cons]
      rw [h a (List.mem_cons_self a l), ih (fun b hb => h b (List.mem_cons_of_mem a hb))]
      ring

/-- `getD` of a constant-piece-length `flatMap` at a structured index. -/
theorem flatMap_getD_const {α : Type} (g : α → List ℕ) (L : ℕ) :
    ∀ (l : List α), (∀ a ∈ l, (g a).length = L) →
      ∀ (q r : ℕ) (hq : q < l.length), r < L →
        (l.flatMap g).getD (q * L + r) 0 = (g (l.get ⟨q, hq⟩)).getD r 0 := by
  intro l
  induction l with
  | nil => intro _ q r hq _; exact absurd hq (Nat.not_lt_zero q)
  | cons a l ih =>
      intro h q r hq hr
      cases q with
      | zero =>
          simp only [List.flatMap_cons, Nat.zero_mul, Nat.zero_add, List.get]
          exact List.getD_append _ _ _ _ (by rw [h a (List.mem_cons_self a l)]; exact hr)
      | succ q =>
          simp only [List.flatMap_cons, List.get]
          have hlen : (g a).length = L := h a (List.mem_cons_self a l)
          have hle : (g a).length ≤ (q + 1) * L + r := by
            rw [hlen, Nat.succ_mul]
            omega
          rw [List.getD_append_right _ _ _ _ hle, hlen]
          have hidx : (q + 1) * L + r - L = q * L + r := by rw [Nat.succ_mul]; omega
          rw [hidx]
          exact ih (fun b hb => h b (List.mem_cons_of_mem a hb)) q r
            (Nat.lt_of_succ_lt_succ hq) hr

theorem mkData_length (w h c : ℕ) (f : ℕ → ℕ → ℕ → ℕ) :
    (mkData w h c f).length = h * (w * c) := by
  unfold mkData
  rw [flatMap_length_const _ (w * c)]
  · rw [List.length_range]
  · intro y _
    rw [flatMap_length_const _ c]
    · rw [List.length_range]
    · intro x _
      rw [List.length_map, List.length_range]

/-- Reading the triple-loop output at the flat index `(y*w+x)*c+ch`
recovers `f x y ch`. -/
theorem mkData_getD (w h c : ℕ) (f : ℕ → ℕ → ℕ → ℕ) (x y ch : ℕ)
    (hx : x < w) (hy : y < h) (hch : ch < c) :
    (mkData w h c f).getD ((y * w + x) * c + ch) 0 = f x y ch := by
  unfold mkData
  have hidx : (y * w + x) * c + ch = y * (w * c) + (x * c + ch) := by ring
  rw [hidx]
  have hy' : y < (List.range h).length := by rw [List.length_range]; exact hy
  rw [flatMap_getD_const _ (w * c) _
      (fun a _ => by
        rw [flatMap_length_const _ c]
        · rw [List.length_range]
        · intro x' _; rw [List.length_map, List.length_range])
      y (x * c + ch) hy'
      (by calc x * c + ch < x * c + c := by omega
            _ = (x + 1) * c := by ring
            _ ≤ w * c := Nat.mul_le_mul_right c hx)]
  have hgy : (List.range h).get ⟨y, hy'⟩ = y := by
    rw [List.get_eq_getElem, List.getElem_range]
  rw [hgy]
  have hx' : x < (List.range w).length := by rw [List.length_range]; exact hx
  rw [flatMap_getD_const _ c _
      (fun a _ => by rw [List.length_map, List.length_range]) x ch hx' hch]
  have hgx : (List.range w).get ⟨x, hx'⟩ = x := by
    rw [List.get_eq_getElem, List.getElem_range]
  rw [hgx]
  have hch' : ch < ((List.range c).map fun k => f x y k).length := by
    rw [List.length_map, List.length_range]; exact hch
  rw [List.getD_eq_getElem _ _ hch', List.getElem_map, List.getElem_range]

/-- Every flat index below `h*(w*c)` decomposes as `(y*w+x)*c+ch` with
in-range coordinates. -/
theorem index_decomp (w h c n : ℕ) (hn : n < h * (w * c)) :
    ∃ x y ch, x < w ∧ y < h ∧ ch < c ∧ n = (y * w + x) * c + ch := by
  have hwc : 0 < w * c := by
    rcases Nat.eq_zero_or_pos (w * c) with h0 | h0
    · rw [h0, Nat.mul_zero] at hn; exact absurd hn (Nat.not_lt_zero n)
    · exact h0
  have hc : 0 < c := by
    rcases Nat.eq_zero_or_pos c with h0 | h0
    · rw [h0, Nat.mul_zero] at hwc; exact absurd hwc (lt_irrefl 0)
    · exact h0
  refine ⟨n % (w * c) / c, n / (w * c), n % c, ?_, ?_, ?_, ?_⟩
  · exact Nat.div_lt_of_lt_mul (by rw [Nat.mul_comm c w]; exact Nat.mod_lt n hwc)
  · exact Nat.div_lt_of_lt_mul (by rw [Nat.mul_comm (w * c) h]; exact hn)
  · exact Nat.mod_lt n hc
  · have h1 : n % (w * c) % c = n % c := Nat.mod_mod_of_dvd n (dvd_mul_left c w)
    have h3 : n % (w * c) / c * c + n % (w * c) % c = n % (w * c) := by
      rw [Nat.mul_comm]; exact Nat.div_add_mod (n % (w * c)) c
    have h4 : n / (w * c) * (w * c) + n % (w * c) = n := by
      rw [Nat.mul_comm]; exact Nat.div_add_mod n (w * c)
    calc n = n / (w * c) * (w * c) + (n % (w * c) / c * c + n % (w * c) % c) := by
            rw [h3, h4]
      _ = (n / (w * c) * w + n % (w * c) / c) * c + n % (w * c) % c := by ring
      _ = (n / (w * c) * w + n % (w * c) / c) * c + n % c := by rw [h1]

/-- Two lists of equal length agreeing on `getD` at every in-range index
are equal. -/
theorem list_ext_getD {l₁ l₂ : List ℕ} (hlen : l₁.length = l₂.length)
    (h : ∀ i < l₁.length, l₁.getD i 0 = l₂.getD i 0) : l₁ = l₂ := by
  apply List.ext_getElem hlen
  intro n h₁ h₂
  rw [← List.getD_eq_getElem l₁ 0 h₁, ← List.getD_eq_getElem l₂ 0 h₂]
  exact h n h₁

/-- `mkData` only depends on `f` at in-range coordinates. -/
theorem mkData_congr (w h c : ℕ) (f g : ℕ → ℕ → ℕ → ℕ)
    (hfg : ∀ x < w, ∀ y < h, ∀ ch < c, f x y ch = g x y ch) :
    mkData w h c f = mkData w h c g := by
  apply list_ext_getD (by rw [mkData_length, mkData_length])
  intro i hi
  rw [mkData_length] at hi
  obtain ⟨x, y, ch, hx, hy, hch, rfl⟩ := index_decomp w h c i hi
  rw [mkData_getD _ _ _ _ _ _ _ hx hy hch, mkData_getD _ _ _ _ _ _ _ hx hy hch]
  exact hfg x hx y hy ch hch

/-- Rebuilding a well-formed buffer pixel-by-pixel returns the same flat
list. -/
theorem mkData_reconstruct (w h c : ℕ) (data : List ℕ)
    (hlen : data.length = w * h * c) :
    mkData w h c (fun x y ch => data.getD ((y * w + x) * c + ch) 0) = data := by
  apply list_ext_getD (by rw [mkData_length, hlen]; ring)
  intro i hi
  rw [mkData_length] at hi
  obtain ⟨x, y, ch, hx, hy, hch, rfl⟩ := index_decomp w h c i hi
  rw [mkData_getD _ _ _ _ _ _ _ hx hy hch]

theorem ratTrunc_natCast (n : ℕ) : ratTrunc (n : ℚ) = n := by
  unfold ratTrunc
  rw [if_pos (by positivity)]
  exact_mod_cast Int.floor_natCast n

theorem ucCast_natCast (n : ℕ) (hn : n < 256) : ucCast (n : ℚ) = n := by
  unfold ucCast
  rw [ratTrunc_natCast, Int.toNat_natCast]
  exact Nat.mod_eq_of_lt hn

theorem ratTrunc_le_intCast {q : ℚ} {n : ℤ} (hn : 0 ≤ n) (h : q ≤ (n : ℚ)) :
    ratTrunc q ≤ n := by
  unfold ratTrunc
  split_ifs with h0
  · calc ⌊q⌋ ≤ ⌊(n : ℚ)⌋ := Int.floor_le_floor h
      _ = n := Int.floor_intCast n
  · calc ⌈q⌉ ≤ 0 := Int.ceil_le.mpr (by exact_mod_cast le_of_lt (lt_of_not_ge h0))
      _ ≤ n := hn

theorem ratTrunc_lt_intCast {q : ℚ} {n : ℤ} (hn : 0 < n) (h : q < (n : ℚ)) :
    ratTrunc q < n := by
  unfold ratTrunc
  split_ifs with h0
  · exact Int.floor_lt.mpr h
  · calc ⌈q⌉ ≤ 0 := Int.ceil_le.mpr (by exact_mod_cast le_of_lt (lt_of_not_ge h0))
      _ < n := hn

theorem ratTrunc_nonpos {q : ℚ} (h : q ≤ 0) : ratTrunc q ≤ 0 := by
  unfold ratTrunc
  split_ifs with h0
  · rw [le_antisymm h h0]
    simp
  · exact Int.ceil_le.mpr (by exact_mod_cast h)

/-- C1: for a grayscale triple with r = 252 (and any r in 243..252) the
code returns `232 + (r-3)/10 = 256`, which lies outside the claimed
range [232,255] and outside the 256-color palette, and the value drops
back to 231 at r = 253, so the grayscale ramp is not monotone. -/
theorem rgb_to_256_grayscale_escapes_range :
    rgb_to_256 252 252 252 = 256 ∧ rgb_to_256 253 253 253 = 231 ∧
      ¬ rgb_to_256 252 252 252 ≤ 255 := by decide

/-- C10: the 256-color palette index computed by the code can equal 256,
one past the last valid index of the 256-entry escape-code cache. -/
theorem rgb_to_256_exceeds_cache_bound :
    rgb_to_256 243 243 243 = 256 ∧ ¬ rgb_to_256 243 243 243 < 256 + 0 := by decide

/-- C9: both flips are involutions: flipping twice returns a buffer
pixel-identical to the input, for every well-formed image. -/
theorem flip_involution (img : Image)
    (hlen : img.data.length = img.w * img.h * img.c) :
    flip_image_horizontal (flip_image_horizontal img) = img ∧
      flip_image_vertical (flip_image_vertical img) = img := by
  obtain ⟨w, h, c, data⟩ := img
  simp only [flip_image_horizontal, flip_image_vertical] at *
  constructor
  · congr 1
    have hstep : ∀ x < w, ∀ y < h, ∀ ch < c,
        (mkData w h c fun x' y' ch' =>
            data.getD ((y' * w + (w - 1 - x')) * c + ch') 0).getD
          ((y * w + (w - 1 - x)) * c + ch) 0
          = data.getD ((y * w + x) * c + ch) 0 := by
      intro x hx y hy ch hch
      have hx1 : w - 1 - x < w := by omega
      rw [mkData_getD _ _ _ _ _ _ _ hx1 hy hch]
      have hxx : w - 1 - (w - 1 - x) = x := by omega
      rw [hxx]
    calc (mkData w h c fun x y ch =>
            (mkData w h c fun x' y' ch' =>
                data.getD ((y' * w + (w - 1 - x')) * c + ch') 0).getD
              ((y * w + (w - 1 - x)) * c + ch) 0)
        = mkData w h c fun x y ch => data.getD ((y * w + x) * c + ch) 0 :=
          mkData_congr _ _ _ _ _ hstep
      _ = data := mkData_reconstruct w h c data hlen
  · congr 1
    have hstep : ∀ x < w, ∀ y < h, ∀ ch < c,
        (mkData w h c fun x' y' ch' =>
            data.getD (((h - 1 - y') * w + x') * c + ch') 0).getD
          (((h - 1 - y) * w + x) * c + ch) 0
          = data.getD ((y * w + x) * c + ch) 0 := by
      intro x hx y hy ch hch
      have hy1 : h - 1 - y < h := by omega
      rw [mkData_getD _ _ _ _ _ _ _ hx hy1 hch]
      have hyy : h - 1 - (h - 1 - y) = y := by omega
      rw [hyy]
    calc (mkData w h c fun x y ch =>
            (mkData w h c fun x' y' ch' =>
                data.getD (((h - 1 - y') * w + x') * c + ch') 0).getD
              (((h - 1 - y) * w + x) * c + ch) 0)
        = mkData w h c fun x y ch => data.getD ((y * w + x) * c + ch) 0 :=
          mkData_congr _ _ _ _ _ hstep
      _ = data := mkData_reconstruct w h c data hlen

/-- Witness for `flip_involution` at a concrete 2×2 single-channel
image. -/
theorem flip_involution_witness :
    flip_image_horizontal (flip_image_horizontal ⟨2, 2, 1, [1, 2, 3, 4]⟩)
        = ⟨2, 2, 1, [1, 2, 3, 4]⟩ ∧
      flip_image_vertical (flip_image_vertical ⟨2, 2, 1, [1, 2, 3, 4]⟩)
        = ⟨2, 2, 1, [1, 2, 3, 4]⟩ :=
  flip_involution ⟨2, 2, 1, [1, 2, 3, 4]⟩ (by decide)

/-- C2: rotating a non-square image reads outside the source buffer:
for the 2×1 single-channel image `[7, 9]` the very first source index the
rotation computes is 2, at the end of the 2-sample buffer, and four
rotations return garbage (0 under the OOB-reads-as-0 model) instead of
the original content. -/
theorem rotate4_not_identity :
    rotateSrcIdx 2 1 0 0 0 = 2 ∧ ¬ rotateSrcIdx 2 1 0 0 0 < (2 : ℤ) ∧
      rotate_image_90_cw (rotate_image_90_cw (rotate_image_90_cw
          (rotate_image_90_cw ⟨2, 1, 1, [7, 9]⟩)))
        = ⟨2, 1, 1, [0, 0]⟩ ∧
      (⟨2, 1, 1, [0, 0]⟩ : Image) ≠ ⟨2, 1, 1, [7, 9]⟩ := by decide

theorem clampCoord_lt (v : ℤ) (n : ℕ) (hn : 1 ≤ n) : clampCoord v n < n := by
  unfold clampCoord
  split_ifs <;> omega

/-- C3: rendering a 1- or 2-channel image reads past the pixel buffer:
for a 1×1 single-channel image the extraction reads indices 1 and 2
although the buffer holds `1*1*1 = 1` sample, so the claimed bound
(every read index below `width*height*channels`) fails. -/
theorem render_reads_out_of_bounds :
    2 ∈ render_pixel_reads 1 ((0 * 1 + 0) * 1) ∧ ¬ 2 < 1 * 1 * 1 ∧
      render_pixel_color ⟨1, 1, 1, [200]⟩ 0 0 0 0 0 = (200, 0, 0) := by decide

/-- C8: rendering a 1×1 opaque white pixel in TrueColor mode writes
exactly the line `ESC[48;2;255;255;255m ESC[0m\n`, both for a 3-channel
image and for a 4-channel image with alpha 255. -/
theorem render_white_pixel_truecolor :
    render_image ⟨1, 1, 3, [255, 255, 255]⟩ 0 0 0 ColorMode.trueColor
        = "\x1b[48;2;255;255;255m \x1b[0m\n" ∧
      render_image ⟨1, 1, 4, [255, 255, 255, 255]⟩ 0 0 0 ColorMode.trueColor
        = "\x1b[48;2;255;255;255m \x1b[0m\n" := by
  constructor
  · rfl
  · have hpix : render_pixel_color ⟨1, 1, 4, [255, 255, 255, 255]⟩ 0 0 0 0 0
        = (255, 255, 255) := by
      have h255 : ucCast (255 : ℚ) = 255 := by
        rw [show (255 : ℚ) = ((255 : ℕ) : ℚ) by norm_num]
        exact ucCast_natCast 255 (by norm_num)
      unfold render_pixel_color
      norm_num [List.getD, h255]
    unfold render_image
    rw [show List.range 1 = [0] from rfl]
    simp only [List.map_cons, List.map_nil, hpix]
    rfl

/-- C4: the error contract of `resize_image_bilinear`: `InvalidInput`
exactly when a destination or source-rectangle dimension is zero or
negative (before anything is built), `SizeOverflow` exactly when the
destination byte count exceeds the size limit (before the output buffer
is built), and success in every other case. -/
theorem resize_error_contract (img : Image) (sx sy sw sh nw nh : ℤ) (szMax : ℕ)
    (hfit : nw.toNat * nh.toNat * img.c < 2 ^ 64) :
    (resize_image_bilinear img sx sy sw sh nw nh szMax = .error .invalidInput
        ↔ nw ≤ 0 ∨ nh ≤ 0 ∨ sw ≤ 0 ∨ sh ≤ 0) ∧
      (0 < nw → 0 < nh → 0 < sw → 0 < sh →
        ((resize_image_bilinear img sx sy sw sh nw nh szMax = .error .sizeOverflow
            ↔ szMax < nw.toNat * nh.toNat * img.c) ∧
          (nw.toNat * nh.toNat * img.c ≤ szMax →
            ∃ out, resize_image_bilinear img sx sy sw sh nw nh szMax = .ok out))) := by
  unfold resize_image_bilinear
  rw [Nat.mod_eq_of_lt hfit]
  constructor
  · split_ifs with hinv hov
    · exact iff_of_true rfl hinv
    · exact iff_of_false (by simp) hinv
    · exact iff_of_false (by simp) hinv
  · intro hnw hnh hsw hsh
    rw [if_neg (by omega)]
    constructor
    · split_ifs with hov
      · exact iff_of_true rfl hov
      · exact iff_of_false (by simp) (by omega)
    · intro hle
      rw [if_neg (by omega)]
      exact ⟨_, rfl⟩

/-- Witness for `resize_error_contract` on a 1×1 single-channel image:
a zero destination width is rejected as invalid input, a size limit of 0
triggers the overflow report, and a size limit of 5 lets the resize
succeed. -/
theorem resize_error_contract_witness :
    (resize_image_bilinear ⟨1, 1, 1, [9]⟩ 0 0 1 1 0 1 5 = .error .invalidInput) ∧
      (resize_image_bilinear ⟨1, 1, 1, [9]⟩ 0 0 1 1 1 1 0 = .error .sizeOverflow) ∧
      (∃ out, resize_image_bilinear ⟨1, 1, 1, [9]⟩ 0 0 1 1 1 1 5 = .ok out) := by
  refine ⟨?_, ?_, ?_⟩
  · exact (resize_error_contract ⟨1, 1, 1, [9]⟩ 0 0 1 1 0 1 5 (by decide)).1.mpr
      (by decide)
  · exact ((resize_error_contract ⟨1, 1, 1, [9]⟩ 0 0 1 1 1 1 0 (by decide)).2
      (by decide) (by decide) (by decide) (by decide)).1.mpr (by decide)
  · exact ((resize_error_contract ⟨1, 1, 1, [9]⟩ 0 0 1 1 1 1 5 (by decide)).2
      (by decide) (by decide) (by decide) (by decide)).2 (by decide)

theorem ucCast_add_half (n : ℕ) (hn : n ≤ 255) : ucCast ((n : ℚ) + 1 / 2) = n := by
  unfold ucCast ratTrunc
  rw [if_pos (by positivity)]
  have hfl : ⌊(n : ℚ) + 1 / 2⌋ = (n : ℤ) := by
    rw [Int.floor_eq_iff]
    constructor
    · push_cast; linarith
    · push_cast; linarith
  rw [hfl, Int.toNat_natCast]
  exact Nat.mod_eq_of_lt (by omega)

/-- On a uniform-color image every bilinear sample reproduces the color
exactly: the four (clamped, hence in-bounds) neighbor reads agree, and
the blend followed by add-0.5-and-truncate returns the value intact. -/
theorem bilinear_sample_uniform (img : Image) (col : ℕ → ℕ)
    (hw : 1 ≤ img.w) (hh : 1 ≤ img.h)
    (hcol : ∀ ch < img.c, col ch ≤ 255)
    (huni : ∀ x < img.w, ∀ y < img.h, ∀ ch < img.c,
      img.data.getD ((y * img.w + x) * img.c + ch) 0 = col ch)
    (sx sy : ℤ) (xs ys : ℚ) (x y ch : ℕ) (hch : ch < img.c) :
    bilinear_sample img sx sy xs ys x y ch = col ch := by
  simp only [bilinear_sample]
  have h11 := huni _ (clampCoord_lt (ratTrunc ((sx : ℚ) + (x : ℚ) * xs)) img.w hw)
    _ (clampCoord_lt (ratTrunc ((sy : ℚ) + (y : ℚ) * ys)) img.h hh) ch hch
  have h21 := huni _ (clampCoord_lt (ratTrunc ((sx : ℚ) + (x : ℚ) * xs) + 1) img.w hw)
    _ (clampCoord_lt (ratTrunc ((sy : ℚ) + (y : ℚ) * ys)) img.h hh) ch hch
  have h12 := huni _ (clampCoord_lt (ratTrunc ((sx : ℚ) + (x : ℚ) * xs)) img.w hw)
    _ (clampCoord_lt (ratTrunc ((sy : ℚ) + (y : ℚ) * ys) + 1) img.h hh) ch hch
  have h22 := huni _ (clampCoord_lt (ratTrunc ((sx : ℚ) + (x : ℚ) * xs) + 1) img.w hw)
    _ (clampCoord_lt (ratTrunc ((sy : ℚ) + (y : ℚ) * ys) + 1) img.h hh) ch hch
  rw [h11, h21, h12, h22]
  have key : ∀ v dx dy : ℚ,
      (v * (1 - dx) + v * dx) * (1 - dy) + (v * (1 - dx) + v * dx) * dy + 1 / 2
        = v + 1 / 2 := by
    intro v dx dy
    ring
  rw [key]
  exact ucCast_add_half (col ch) (hcol ch hch)

/-- C7: resizing a uniform-color image (on a 64-bit size limit, where
the destination never overflows) succeeds and every destination sample
equals the source color exactly, for every positive source rectangle and
destination size. -/
theorem resize_uniform_exact (img : Image) (col : ℕ → ℕ) (sx sy sw sh nw nh : ℤ)
    (hw : 1 ≤ img.w) (hh : 1 ≤ img.h)
    (hcol : ∀ ch < img.c, col ch ≤ 255)
    (huni : ∀ x < img.w, ∀ y < img.h, ∀ ch < img.c,
      img.data.getD ((y * img.w + x) * img.c + ch) 0 = col ch)
    (hnw : 0 < nw) (hnh : 0 < nh) (hsw : 0 < sw) (hsh : 0 < sh) :
    ∃ out, resize_image_bilinear img sx sy sw sh nw nh (2 ^ 64 - 1) = .ok out ∧
      out.w = nw.toNat ∧ out.h = nh.toNat ∧ out.c = img.c ∧
      ∀ x < out.w, ∀ y < out.h, ∀ ch < out.c,
        out.data.getD ((y * out.w + x) * out.c + ch) 0 = col ch := by
  refine ⟨⟨nw.toNat, nh.toNat, img.c,
      mkData nw.toNat nh.toNat img.c fun x y ch =>
        bilinear_sample img sx sy ((sw : ℚ) / (nw : ℚ)) ((sh : ℚ) / (nh : ℚ)) x y ch⟩,
    ?_, rfl, rfl, rfl, ?_⟩
  · unfold resize_image_bilinear
    rw [if_neg (by omega)]
    rw [if_neg (by
      have := Nat.mod_lt (nw.toNat * nh.toNat * img.c) (show 0 < 2 ^ 64 by positivity)
      omega)]
  · intro x hx y hy ch hch
    rw [mkData_getD _ _ _ _ _ _ _ hx hy hch]
    exact bilinear_sample_uniform img col hw hh hcol huni sx sy _ _ x y ch hch

/-- Witness for `resize_uniform_exact`: the spec scenario, a 4×4 uniform
red (255,0,0) 3-channel image resized to 2×2, yields (255,0,0) at every
destination pixel. -/
theorem resize_uniform_exact_witness :
    ∃ out, resize_image_bilinear
        ⟨4, 4, 3, [255, 0, 0, 255, 0, 0, 255, 0, 0, 255, 0, 0,
                   255, 0, 0, 255, 0, 0, 255, 0, 0, 255, 0, 0,
                   255, 0, 0, 255, 0, 0, 255, 0, 0, 255, 0, 0,
                   255, 0, 0, 255, 0, 0, 255, 0, 0, 255, 0, 0]⟩
        0 0 4 4 2 2 (2 ^ 64 - 1) = .ok out ∧
      out.w = 2 ∧ out.h = 2 ∧ out.c = 3 ∧
      ∀ x < out.w, ∀ y < out.h, ∀ ch < out.c,
        out.data.getD ((y * out.w + x) * out.c + ch) 0
          = (fun ch => if ch = 0 then 255 else 0) ch :=
  resize_uniform_exact
    ⟨4, 4, 3, [255, 0, 0, 255, 0, 0, 255, 0, 0, 255, 0, 0,
               255, 0, 0, 255, 0, 0, 255, 0, 0, 255, 0, 0,
               255, 0, 0, 255, 0, 0, 255, 0, 0, 255, 0, 0,
               255, 0, 0, 255, 0, 0, 255, 0, 0, 255, 0, 0]⟩
    (fun ch => if ch = 0 then 255 else 0) 0 0 4 4 2 2
    (by decide) (by decide) (by decide) (by decide)
    (by decide) (by decide) (by decide) (by decide)

theorem clamp1_ge_one (v : ℤ) : 1 ≤ clamp1 v := by
  unfold clamp1
  split_ifs <;> omega

theorem clamp1_le {v n : ℤ} (h1 : 1 ≤ n) (h : v ≤ n) : clamp1 v ≤ n := by
  unfold clamp1
  split_ifs <;> omega

theorem clamp1_eq_self {v : ℤ} (h : 1 ≤ v) : clamp1 v = v := by
  unfold clamp1
  rw [if_neg (by omega)]

theorem crop_size_bounds (extent : ℤ) (q : ℚ) (h1 : 1 ≤ extent) :
    1 ≤ crop_size extent q ∧ crop_size extent q ≤ extent := by
  unfold crop_size
  have := clamp1_ge_one (ratTrunc q)
  split_ifs <;> omega

theorem crop_offset_bounds (extent size off : ℤ) (h1 : 1 ≤ size)
    (h2 : size ≤ extent) :
    0 ≤ crop_offset extent size off ∧ crop_offset extent size off + size ≤ extent := by
  simp only [crop_offset]
  split_ifs <;> omega

/-- C6: for every image of positive extent, every pan offset and every
zoom factor, the source rectangle computed by `main` is fully contained
in the image: nonnegative corner, size at least 1×1, and the far corner
within the image bounds. -/
theorem main_source_rect_invariant (w h offx offy : ℤ) (zoom : ℚ)
    (hw : 1 ≤ w) (hh : 1 ≤ h) (hz : 0 < zoom) :
    0 ≤ (main_source_rect w h offx offy zoom).1 ∧
      0 ≤ (main_source_rect w h offx offy zoom).2.1 ∧
      1 ≤ (main_source_rect w h offx offy zoom).2.2.1 ∧
      1 ≤ (main_source_rect w h offx offy zoom).2.2.2 ∧
      (main_source_rect w h offx offy zoom).1
          + (main_source_rect w h offx offy zoom).2.2.1 ≤ w ∧
      (main_source_rect w h offx offy zoom).2.1
          + (main_source_rect w h offx offy zoom).2.2.2 ≤ h := by
  obtain ⟨hsw1, hsw2⟩ := crop_size_bounds w ((w : ℚ) / zoom) hw
  obtain ⟨hsh1, hsh2⟩ := crop_size_bounds h ((h : ℚ) / zoom) hh
  obtain ⟨hx1, hx2⟩ := crop_offset_bounds w _ offx hsw1 hsw2
  obtain ⟨hy1, hy2⟩ := crop_offset_bounds h _ offy hsh1 hsh2
  exact ⟨hx1, hy1, hsw1, hsh1, hx2, hy2⟩

/-- Witness for `main_source_rect_invariant`: a 10×10 image panned to
(-5, 100) at zoom factor 2. -/
theorem main_source_rect_invariant_witness :
    0 ≤ (main_source_rect 10 10 (-5) 100 2).1 ∧
      0 ≤ (main_source_rect 10 10 (-5) 100 2).2.1 ∧
      1 ≤ (main_source_rect 10 10 (-5) 100 2).2.2.1 ∧
      1 ≤ (main_source_rect 10 10 (-5) 100 2).2.2.2 ∧
      (main_source_rect 10 10 (-5) 100 2).1
          + (main_source_rect 10 10 (-5) 100 2).2.2.1 ≤ 10 ∧
      (main_source_rect 10 10 (-5) 100 2).2.1
          + (main_source_rect 10 10 (-5) 100 2).2.2.2 ≤ 10 :=
  main_source_rect_invariant 10 10 (-5) 100 2 (by decide) (by decide) (by norm_num)

/-- Bounds for the clamping tail of `calculate_display_dimensions`
(min-clamp, width clamp, height clamp, re-clamp): the result stays in
`[1, tw] × [1, u]` provided the height-clamp recomputation respects the
terminal width, or the heights feeding the height clamp already fit. -/
theorem cdd_tail_bounds (Aq : ℚ) (tw u cw ch : ℤ)
    (htw1 : 1 ≤ tw) (hu1 : 1 ≤ u)
    (hfire : clamp1 (ratTrunc (((u : ℚ) * charAspect) * Aq)) ≤ tw
      ∨ (clamp1 (ratTrunc (((tw : ℚ) / Aq) / charAspect)) ≤ u
          ∧ (¬ tw < cw → ch ≤ u))) :
    1 ≤ (cdd_min1 (cdd_clamp_height Aq u (cdd_clamp_width Aq tw (cw, ch)))).1 ∧
      (cdd_min1 (cdd_clamp_height Aq u (cdd_clamp_width Aq tw (cw, ch)))).1 ≤ tw ∧
      1 ≤ (cdd_min1 (cdd_clamp_height Aq u (cdd_clamp_width Aq tw (cw, ch)))).2 ∧
      (cdd_min1 (cdd_clamp_height Aq u (cdd_clamp_width Aq tw (cw, ch)))).2 ≤ u := by
  by_cases hW : tw < cw
  · have e1 : cdd_clamp_width Aq tw (cw, ch)
        = (tw, clamp1 (ratTrunc (((tw : ℚ) / Aq) / charAspect))) := by
      simp only [cdd_clamp_width]
      rw [if_pos hW]
    rw [e1]
    by_cases hH : u < clamp1 (ratTrunc (((tw : ℚ) / Aq) / charAspect))
    · have e2 : cdd_clamp_height Aq u
          (tw, clamp1 (ratTrunc (((tw : ℚ) / Aq) / charAspect)))
          = (clamp1 (ratTrunc (((u : ℚ) * charAspect) * Aq)), u) := by
        simp only [cdd_clamp_height]
        rw [if_pos hH]
      rw [e2]
      simp only [cdd_min1]
      have hleft : clamp1 (ratTrunc (((u : ℚ) * charAspect) * Aq)) ≤ tw := by
        rcases hfire with hL | ⟨hchR, _⟩
        · exact hL
        · exact absurd hH (not_lt.mpr hchR)
      refine ⟨clamp1_ge_one _, ?_, clamp1_ge_one _, ?_⟩
      · rw [clamp1_eq_self (clamp1_ge_one _)]
        exact hleft
      · rw [clamp1_eq_self hu1]
    · have e2 : cdd_clamp_height Aq u
          (tw, clamp1 (ratTrunc (((tw : ℚ) / Aq) / charAspect)))
          = (tw, clamp1 (ratTrunc (((tw : ℚ) / Aq) / charAspect))) := by
        simp only [cdd_clamp_height]
        rw [if_neg hH]
      rw [e2]
      simp only [cdd_min1]
      refine ⟨clamp1_ge_one _, clamp1_le htw1 (le_refl tw), clamp1_ge_one _, ?_⟩
      rw [clamp1_eq_self (clamp1_ge_one _)]
      omega
  · have e1 : cdd_clamp_width Aq tw (cw, ch) = (cw, ch) := by
      simp only [cdd_clamp_width]
      rw [if_neg hW]
    rw [e1]
    by_cases hH : u < ch
    · have e2 : cdd_clamp_height Aq u (cw, ch)
          = (clamp1 (ratTrunc (((u : ℚ) * charAspect) * Aq)), u) := by
        simp only [cdd_clamp_height]
        rw [if_pos hH]
      rw [e2]
      simp only [cdd_min1]
      have hleft : clamp1 (ratTrunc (((u : ℚ) * charAspect) * Aq)) ≤ tw := by
        rcases hfire with hL | ⟨_, himp⟩
        · exact hL
        · exact absurd hH (not_lt.mpr (himp hW))
      refine ⟨clamp1_ge_one _, ?_, clamp1_ge_one _, ?_⟩
      · rw [clamp1_eq_self (clamp1_ge_one _)]
        exact hleft
      · rw [clamp1_eq_self hu1]
    · have e2 : cdd_clamp_height Aq u (cw, ch) = (cw, ch) := by
        simp only [cdd_clamp_height]
        rw [if_neg hH]
      rw [e2]
      simp only [cdd_min1]
      exact ⟨clamp1_ge_one _, clamp1_le htw1 (by omega), clamp1_ge_one _,
        clamp1_le hu1 (by omega)⟩

/-- C5: for positive source dimensions, a positive zoom factor and a
positive terminal size, `calculate_display_dimensions` returns a width
in `[1, terminal width]` and a height in `[1, usable rows]`, where the
usable row count is `terminal height - 2` floored at 1. -/
theorem calculate_display_dimensions_bounds (imgW imgH : ℤ) (zoom : ℚ) (tw th : ℤ)
    (hiw : 0 < imgW) (hih : 0 < imgH) (hz : 0 < zoom) (htw : 0 < tw) (hth : 0 < th) :
    1 ≤ (calculate_display_dimensions imgW imgH zoom tw th).1 ∧
      (calculate_display_dimensions imgW imgH zoom tw th).1 ≤ tw ∧
      1 ≤ (calculate_display_dimensions imgW imgH zoom tw th).2 ∧
      (calculate_display_dimensions imgW imgH zoom tw th).2 ≤ clamp1 (th - 2) := by
  unfold calculate_display_dimensions
  rw [if_neg (by omega : ¬(imgW ≤ 0 ∨ imgH ≤ 0))]
  set u : ℤ := clamp1 (th - 2) with hu
  have hu1 : 1 ≤ u := clamp1_ge_one _
  set A : ℚ := (imgW : ℚ) / (imgH : ℚ) with hA
  set E : ℚ := (tw : ℚ) / ((u : ℚ) * charAspect) with hE
  have hCA : (0 : ℚ) < charAspect := by norm_num [charAspect]
  have hApos : 0 < A := by
    rw [hA]
    exact div_pos (by exact_mod_cast hiw) (by exact_mod_cast hih)
  have hupos : (0 : ℚ) < (u : ℚ) := by exact_mod_cast (by omega : (0 : ℤ) < u)
  by_cases hAE : E < A
  · have h1 : (tw : ℚ) < A * ((u : ℚ) * charAspect) := by
      rw [hE] at hAE
      exact (div_lt_iff₀ (mul_pos hupos hCA)).mp hAE
    have hfact1 : (tw : ℚ) / (A * charAspect) < (u : ℚ) := by
      rw [div_lt_iff₀ (mul_pos hApos hCA)]
      calc (tw : ℚ) < A * ((u : ℚ) * charAspect) := h1
        _ = (u : ℚ) * (A * charAspect) := by ring
    have hchW : clamp1 (ratTrunc (((tw : ℚ) / A) / charAspect)) ≤ u := by
      have hlt : ratTrunc (((tw : ℚ) / A) / charAspect) < u := by
        apply ratTrunc_lt_intCast (by omega)
        rw [div_div]
        exact hfact1
      exact clamp1_le hu1 (by omega)
    have hch_imp : ¬ tw < clamp1 (ratTrunc ((tw : ℚ) * zoom)) →
        clamp1 (ratTrunc (((ratTrunc ((tw : ℚ) * zoom) : ℚ) / A) / charAspect)) ≤ u := by
      intro hW
      by_cases hc0 : ratTrunc ((tw : ℚ) * zoom) ≤ 0
      · have hq : ((ratTrunc ((tw : ℚ) * zoom) : ℚ) / A) / charAspect ≤ 0 :=
          div_nonpos_of_nonpos_of_nonneg
            (div_nonpos_of_nonpos_of_nonneg (by exact_mod_cast hc0) (le_of_lt hApos))
            (le_of_lt hCA)
        have h0 := ratTrunc_nonpos hq
        unfold clamp1
        rw [if_pos h0]
        exact hu1
      · push_neg at hc0
        have hceq : clamp1 (ratTrunc ((tw : ℚ) * zoom)) = ratTrunc ((tw : ℚ) * zoom) :=
          clamp1_eq_self (by omega)
        rw [hceq] at hW
        have hleQ : ((ratTrunc ((tw : ℚ) * zoom) : ℤ) : ℚ) ≤ (tw : ℚ) := by
          exact_mod_cast (by omega : ratTrunc ((tw : ℚ) * zoom) ≤ tw)
        have hmono : ((ratTrunc ((tw : ℚ) * zoom) : ℚ) / A) / charAspect
            ≤ ((tw : ℚ) / A) / charAspect :=
          (div_le_div_iff_of_pos_right hCA).mpr
            ((div_le_div_iff_of_pos_right hApos).mpr hleQ)
        have hlt : ((ratTrunc ((tw : ℚ) * zoom) : ℚ) / A) / charAspect < (u : ℚ) :=
          lt_of_le_of_lt hmono (by rw [div_div]; exact hfact1)
        have := ratTrunc_lt_intCast (by omega : (0 : ℤ) < u) hlt
        exact clamp1_le hu1 (by omega)
    have hinit : cdd_initial A E zoom tw u
        = (ratTrunc ((tw : ℚ) * zoom),
           ratTrunc (((ratTrunc ((tw : ℚ) * zoom) : ℚ) / A) / charAspect)) := by
      unfold cdd_initial
      rw [if_pos hAE]
    rw [hinit]
    simp only [cdd_min1]
    exact cdd_tail_bounds A tw u _ _ (by omega) hu1 (Or.inr ⟨hchW, hch_imp⟩)
  · have hAE' : A ≤ E := le_of_not_lt hAE
    have h2 : A * ((u : ℚ) * charAspect) ≤ (tw : ℚ) := by
      rw [hE] at hAE'
      exact (le_div_iff₀ (mul_pos hupos hCA)).mp hAE'
    have hfact2 : ((u : ℚ) * charAspect) * A ≤ (tw : ℚ) := by
      calc ((u : ℚ) * charAspect) * A = A * ((u : ℚ) * charAspect) := by ring
        _ ≤ (tw : ℚ) := h2
    have hfire : clamp1 (ratTrunc (((u : ℚ) * charAspect) * A)) ≤ tw :=
      clamp1_le (by omega) (ratTrunc_le_intCast (by omega) hfact2)
    have hinit : cdd_initial A E zoom tw u
        = (ratTrunc (((ratTrunc ((u : ℚ) * zoom) : ℚ) * charAspect) * A),
           ratTrunc ((u : ℚ) * zoom)) := by
      unfold cdd_initial
      rw [if_neg hAE]
    rw [hinit]
    simp only [cdd_min1]
    exact cdd_tail_bounds A tw u _ _ (by omega) hu1 (Or.inl hfire)

/-- Witness for `calculate_display_dimensions_bounds`: a 100×50 image at
zoom 1 on an 80×24 terminal. -/
theorem calculate_display_dimensions_bounds_witness :
    1 ≤ (calculate_display_dimensions 100 50 1 80 24).1 ∧
      (calculate_display_dimensions 100 50 1 80 24).1 ≤ 80 ∧
      1 ≤ (calculate_display_dimensions 100 50 1 80 24).2 ∧
      (calculate_display_dimensions 100 50 1 80 24).2 ≤ clamp1 (24 - 2) :=
  calculate_display_dimensions_bounds 100 50 1 80 24
    (by decide) (by decide) (by norm_num) (by decide) (by decide)
